import Mathlib

/-!
Verification development for the Svitlobot repository.

The development shallowly embeds the core logic of the repository:

* `src/network.py`   — `NetworkMonitor.check`, the lit/dark hysteresis detector;
* `src/schedule.py`  — `ScheduleParser.get_outages_for_date`, `get_next_outage`,
  `get_next_power_on`, `get_schedule_fingerprint`, `is_full_schedule`;
* `src/state.py`     — `BotState`, `StateManager.load_state`, `set_light_on`,
  `update_schedule_state`;
* `src/main.py`      — `SvitloBot._handle_light_off`, `_fetch_schedule`.

Modelling conventions:

* instants are integers — seconds for the detector and the session state
  (Python `datetime` arithmetic via `total_seconds()`), minutes from the
  monitored day's midnight for schedule intervals;
* Python dicts become association lists (`List (key × value)`); dict lookup is
  `find?` on the first component, mirroring lookup on keys that are unique in
  an actual dict;
* the day-code dict keys `"1"`..`"24"` and the fact-table timestamp keys are
  carried already parsed as numbers;
* `datetime.fromtimestamp(ts, tz).date()` is abstracted as a parameter
  `dateOf : Int → Int`, and the current date `datetime.now(tz).date()` as a
  parameter `today : Int` (tomorrow is `today + 1`);
* the async effects (`await save()`, Telegram calls, sqlite) are cut at the
  state boundary: a function that conditionally calls `save()` returns a
  `persisted` flag instead.
-/

set_option synthInstance.maxSize 512
set_option maxRecDepth 4096

namespace Svitlobot

/-! ## Detector (src/network.py)

`NetworkMonitor` state: `current_state : bool`, `first_failure_time`
(an optional instant), `_pending_alert_logged : bool`. -/

structure DetState where
  current : Bool
  ff : Option Int
  pending : Bool
deriving Repr, DecidableEq

/-- A probe tick as consumed by `NetworkMonitor.check`: the ping outcome, the
instant `datetime.now(...)` observed by the tick, and the
`duration_since_last_change` argument passed in by the caller. -/
structure Tick where
  success : Bool
  time : Int
  dur : Int
deriving Repr, DecidableEq

/-- Events emitted through the `on_light_on` / `on_light_off` callbacks.
`powerLost` carries the callback arguments `duration_since_last_change` and the
backdated `first_failure_time`. -/
inductive Event where
  | powerRestored (dur : Int)
  | powerLost (dur : Int) (start : Int)
deriving Repr, DecidableEq

/-- One call of `NetworkMonitor.check` (src/network.py lines 50-82), given the
ping outcome already resolved.  Returns the successor state and the emitted
event, if any. -/
def step (thr : Int) (s : DetState) (t : Tick) : DetState × Option Event :=
  if t.success then
    ({ current := true, ff := none, pending := false },
     if s.current then none else some (.powerRestored t.dur))
  else
    let f0 := s.ff.getD t.time
    let elapsed := t.time - f0
    if thr ≤ elapsed ∧ s.current = true then
      ({ current := false, ff := some f0, pending := false },
       some (.powerLost t.dur f0))
    else if s.current = true ∧ s.pending = false then
      ({ current := s.current, ff := some f0, pending := true }, none)
    else
      ({ current := s.current, ff := some f0, pending := s.pending }, none)

/-- Folding `check` over a list of ticks. -/
def runDetector (thr : Int) (s : DetState) (ticks : List Tick) : DetState :=
  ticks.foldl (fun s t => (step thr s t).1) s

/-- Folding `check` over a list of ticks, collecting the emitted events tagged
with the instant of the tick that emitted them. -/
def runEvents (thr : Int) (s : DetState) (ticks : List Tick) : List (Int × Event) :=
  (ticks.foldl
    (fun acc t =>
      let r := step thr acc.1 t
      (r.1, acc.2 ++ (r.2.map (fun e => (t.time, e))).toList))
    (s, [])).2

/-- The state of a freshly constructed `NetworkMonitor` with the default
`initial_state=True`. -/
def initState : DetState := { current := true, ff := none, pending := false }

/-- `t₀` is the instant of the start of the failure run currently in progress:
some tick `i` failed at instant `t₀`, every tick from `i` on failed, and tick
`i` is the first failure after the most recent success (it is the first tick,
or the tick before it succeeded). -/
def ffSpec (ticks : List Tick) (t₀ : Int) : Prop :=
  ∃ i tk, ticks.get? i = some tk ∧ tk.success = false ∧ tk.time = t₀ ∧
    (∀ k tk', i ≤ k → ticks.get? k = some tk' → tk'.success = false) ∧
    (i = 0 ∨ ∃ tp, ticks.get? (i - 1) = some tp ∧ tp.success = true)

/-- The trace contains a block of consecutive failed probes, starting at the
first failure after the most recent success, spanning at least `thr` seconds
(elapsed time exactly equal to the threshold counts). -/
def spanningFailure (thr : Int) (ticks : List Tick) : Prop :=
  ∃ i j ti tj, i ≤ j ∧ ticks.get? i = some ti ∧ ticks.get? j = some tj ∧
    thr ≤ tj.time - ti.time ∧
    (∀ k tk, i ≤ k → k ≤ j → ticks.get? k = some tk → tk.success = false) ∧
    (i = 0 ∨ ∃ tp, ticks.get? (i - 1) = some tp ∧ tp.success = true)

/-- The inductive invariant tying the detector state to the trace consumed so
far. -/
def detInv (thr : Int) (ticks : List Tick) (s : DetState) : Prop :=
  (∀ t₀, s.ff = some t₀ → ffSpec ticks t₀) ∧
  (s.ff = none → ∀ tk, ticks.get? (ticks.length - 1) = some tk → tk.success = true) ∧
  (s.current = false → spanningFailure thr ticks)

theorem get?_append_lt {l : List Tick} {x : Tick} {k : ℕ} (hk : k < l.length) :
    (l ++ [x]).get? k = l.get? k :=
  List.get?_append hk

theorem lt_of_get?_some {l : List Tick} {k : ℕ} {tk : Tick}
    (h : l.get? k = some tk) : k < l.length :=
  (List.get?_eq_some.mp h).1

theorem ffSpec_append {ticks : List Tick} {t : Tick} {t₀ : Int}
    (hf : t.success = false) (h : ffSpec ticks t₀) : ffSpec (ticks ++ [t]) t₀ := by
  obtain ⟨i, tk, hi, hsucc, htime, hsuf, hprev⟩ := h
  have hilt := lt_of_get?_some hi
  refine ⟨i, tk, by rwa [get?_append_lt hilt], hsucc, htime, ?_, ?_⟩
  · intro k tk' hik hk
    rcases Nat.lt_or_ge k ticks.length with hkl | hkl
    · exact hsuf k tk' hik (by rwa [get?_append_lt hkl] at hk)
    · have hkeq : k = ticks.length := by
        have := lt_of_get?_some hk
        simp only [List.length_append, List.length_cons, List.length_nil] at this
        omega
      subst hkeq
      rw [List.get?_concat_length] at hk
      cases hk
      exact hf
  · rcases hprev with h0 | ⟨tp, hp, hps⟩
    · exact Or.inl h0
    · exact Or.inr ⟨tp, by rwa [get?_append_lt (lt_of_get?_some hp)], hps⟩

theorem ffSpec_newstart {ticks : List Tick} {t : Tick} (hf : t.success = false)
    (hlast : ∀ tk, ticks.get? (ticks.length - 1) = some tk → tk.success = true) :
    ffSpec (ticks ++ [t]) t.time := by
  refine ⟨ticks.length, t, List.get?_concat_length ticks t, hf, rfl, ?_, ?_⟩
  · intro k tk' hik hk
    have hklt := lt_of_get?_some hk
    simp only [List.length_append, List.length_cons, List.length_nil] at hklt
    have hkeq : k = ticks.length := by omega
    subst hkeq
    rw [List.get?_concat_length] at hk
    cases hk
    exact hf
  · rcases Nat.eq_zero_or_pos ticks.length with h0 | hpos
    · exact Or.inl h0
    · refine Or.inr ?_
      have hlt : ticks.length - 1 < ticks.length := by omega
      have hp : ticks.get? (ticks.length - 1) = some (ticks.get ⟨ticks.length - 1, hlt⟩) :=
        List.get?_eq_get hlt
      exact ⟨_, by rw [get?_append_lt hlt]; exact hp, hlast _ hp⟩

theorem spanningFailure_append {thr : Int} {ticks : List Tick} {x : Tick}
    (h : spanningFailure thr ticks) : spanningFailure thr (ticks ++ [x]) := by
  obtain ⟨i, j, ti, tj, hij, hi, hj, hthr, hall, hprev⟩ := h
  have hjlt := lt_of_get?_some hj
  refine ⟨i, j, ti, tj, hij, by rwa [get?_append_lt (lt_of_get?_some hi)],
    by rwa [get?_append_lt hjlt], hthr, ?_, ?_⟩
  · intro k tk hik hkj hk
    have hklt : k < ticks.length := by omega
    exact hall k tk hik hkj (by rwa [get?_append_lt hklt] at hk)
  · rcases hprev with h0 | ⟨tp, hp, hps⟩
    · exact Or.inl h0
    · exact Or.inr ⟨tp, by rwa [get?_append_lt (lt_of_get?_some hp)], hps⟩

theorem spanning_of_ffSpec_last {thr : Int} {l : List Tick} {t₀ : Int}
    (h : ffSpec l t₀) {tj : Tick} (hj : l.get? (l.length - 1) = some tj)
    (hthr : thr ≤ tj.time - t₀) : spanningFailure thr l := by
  obtain ⟨i, tk, hi, hsucc, htime, hsuf, hprev⟩ := h
  have hilt := lt_of_get?_some hi
  refine ⟨i, l.length - 1, tk, tj, by omega, hi, hj, by rw [htime]; exact hthr, ?_, hprev⟩
  intro k tk' hik _ hk
  exact hsuf k tk' hik hk

theorem step_success_eq (thr : Int) (s : DetState) (t : Tick) (hs : t.success = true) :
    step thr s t = ({ current := true, ff := none, pending := false },
      if s.current then none else some (.powerRestored t.dur)) := by
  simp only [step, hs, if_true]

theorem step_fire_eq (thr : Int) (s : DetState) (t : Tick) (hs : t.success = false)
    (hfire : thr ≤ t.time - s.ff.getD t.time ∧ s.current = true) :
    step thr s t = ({ current := false, ff := some (s.ff.getD t.time), pending := false },
      some (.powerLost t.dur (s.ff.getD t.time))) := by
  simp only [step, hs, Bool.false_eq_true, if_false, if_pos hfire]

theorem step_nofire_ff (thr : Int) (s : DetState) (t : Tick) (hs : t.success = false) :
    (step thr s t).1.ff = some (s.ff.getD t.time) := by
  simp only [step, hs, Bool.false_eq_true, if_false]
  split
  · rfl
  · split <;> rfl

theorem step_nofire_current (thr : Int) (s : DetState) (t : Tick) (hs : t.success = false)
    (hnf : ¬(thr ≤ t.time - s.ff.getD t.time ∧ s.current = true)) :
    (step thr s t).1.current = s.current := by
  simp only [step, hs, Bool.false_eq_true, if_false, if_neg hnf]
  split <;> rfl

theorem last_append (ticks : List Tick) (t : Tick) :
    (ticks ++ [t]).get? ((ticks ++ [t]).length - 1) = some t := by
  have : (ticks ++ [t]).length - 1 = ticks.length := by simp
  rw [this]
  exact List.get?_concat_length ticks t

theorem step_detInv {thr : Int} {ticks : List Tick} {s : DetState} {t : Tick}
    (h : detInv thr ticks s) : detInv thr (ticks ++ [t]) (step thr s t).1 := by
  obtain ⟨hA, hB, hC⟩ := h
  by_cases hs : t.success = true
  · rw [step_success_eq thr s t hs]
    refine ⟨?_, ?_, ?_⟩
    · intro t₀ ht₀
      simp at ht₀
    · intro _ tk hget
      rw [last_append] at hget
      cases hget
      exact hs
    · intro hcur
      simp at hcur
  · replace hs : t.success = false := by simpa using hs
    have hffSpec : ffSpec (ticks ++ [t]) (s.ff.getD t.time) := by
      cases hff : s.ff with
      | some t₀ =>
        simp only [Option.getD_some]
        exact ffSpec_append hs (hA t₀ hff)
      | none =>
        simp only [Option.getD_none]
        exact ffSpec_newstart hs (hB hff)
    by_cases hfire : thr ≤ t.time - s.ff.getD t.time ∧ s.current = true
    · rw [step_fire_eq thr s t hs hfire]
      refine ⟨?_, ?_, ?_⟩
      · intro t₀' ht₀'
        cases ht₀'
        exact hffSpec
      · intro hnone
        simp at hnone
      · intro _
        exact spanning_of_ffSpec_last hffSpec (last_append ticks t) hfire.1
    · refine ⟨?_, ?_, ?_⟩
      · intro t₀' ht₀'
        rw [step_nofire_ff thr s t hs] at ht₀'
        cases ht₀'
        exact hffSpec
      · intro hnone
        rw [step_nofire_ff thr s t hs] at hnone
        simp at hnone
      · intro hcur
        rw [step_nofire_current thr s t hs hfire] at hcur
        exact spanningFailure_append (hC hcur)

theorem detInv_nil (thr : Int) : detInv thr [] initState := by
  refine ⟨?_, ?_, ?_⟩
  · intro t₀ h
    simp [initState] at h
  · intro _ tk hget
    simp at hget
  · intro h
    simp [initState] at h

theorem runDetector_inv (thr : Int) :
    ∀ (ticks hist : List Tick) (s : DetState), detInv thr hist s →
      detInv thr (hist ++ ticks) (runDetector thr s ticks) := by
  intro ticks
  induction ticks with
  | nil =>
    intro hist s h
    simpa [runDetector] using h
  | cons t rest ih =>
    intro hist s h
    have h1 : detInv thr (hist ++ [t]) (step thr s t).1 := step_detInv h
    have h2 := ih (hist ++ [t]) _ h1
    rw [List.append_assoc] at h2
    simpa [runDetector, List.foldl_cons] using h2

theorem runDetector_detInv (thr : Int) (ticks : List Tick) :
    detInv thr ticks (runDetector thr initState ticks) := by
  have h := runDetector_inv thr ticks [] initState (detInv_nil thr)
  simpa using h

/-- C1: for every sequence of (probe result, instant) ticks fed to the
detector (constructed in its default `Lit` state), the state is `Dark` only if
the trace contains a block of continuous probe failures spanning at least the
configured threshold, measured from the first failure after the most recent
success (elapsed time exactly equal to the threshold counts as reached); and
any tick whose probe succeeds while the state is `Dark` transitions the
detector to `Lit` on that same tick. -/
theorem detector_dark_needs_threshold_and_recovers_on_success :
    (∀ (thr : Int) (ticks : List Tick),
      (runDetector thr initState ticks).current = false → spanningFailure thr ticks) ∧
    (∀ (thr : Int) (s : DetState) (t : Tick),
      t.success = true → s.current = false → (step thr s t).1.current = true) := by
  constructor
  · intro thr ticks hdark
    exact (runDetector_detInv thr ticks).2.2 hdark
  · intro thr s t hs _
    rw [step_success_eq thr s t hs]

/-- Concrete instantiation: failing probes at t=0 and t=120 with threshold 120
drive the default-initialised detector to `Dark`, hence the trace carries a
threshold-long failure span; and a success tick flips a `Dark` detector back
to `Lit`. -/
theorem detector_dark_needs_threshold_and_recovers_on_success_witness :
    spanningFailure 120 [⟨false, 0, 0⟩, ⟨false, 120, 0⟩] ∧
      (step 120 ⟨false, none, false⟩ ⟨true, 5, 0⟩).1.current = true :=
  ⟨detector_dark_needs_threshold_and_recovers_on_success.1 120
      [⟨false, 0, 0⟩, ⟨false, 120, 0⟩] (by decide),
    detector_dark_needs_threshold_and_recovers_on_success.2 120
      ⟨false, none, false⟩ ⟨true, 5, 0⟩ rfl rfl⟩

/-! ## Schedule fact-table payloads (src/schedule.py, src/state.py)

`data["fact"]["data"]` is a dict from timestamp keys to per-group day tables;
a day table is the dict from hour labels `"1"`..`"24"` to code strings. -/

/-- A day-code table: the dict `{ "1": code, ..., "24": code }` for one group
and one day, keys carried as numbers. -/
abbrev Table := List (Nat × String)

/-- The per-timestamp group dict `{ "GPV6.2": table, ... }`. -/
abbrev Groups := List (String × Table)

/-- `data["fact"]["data"]`: the timestamp-keyed dict of group dicts. -/
abbrev FactData := List (Int × Groups)

/-! ## Session state (src/state.py) -/

/-- `BotState` (src/state.py lines 16-34), field for field; `last_change`
is represented by `lastChange` below. -/
structure BotState where
  light_on : Bool := true
  last_change_timestamp : Int := 0
  last_image_commit_sha : String := ""
  last_schedule_fingerprint : String := ""
  last_light_message_id : Option Int := none
  last_light_duration : Int := 0
  schedule_data : Option FactData := none
deriving Repr, DecidableEq

/-- The `BotState.last_change` property: the stored timestamp, or the current
instant while the sentinel `0.0` is stored. -/
def lastChange (s : BotState) (now : Int) : Int :=
  if s.last_change_timestamp = 0 then now else s.last_change_timestamp

/-- Result of `StateManager.set_light_on`: the returned duration (`none` on
the no-op path), the successor state, and whether `save()` was called. -/
structure LightResult where
  duration : Option Int
  state : BotState
  persisted : Bool
deriving Repr, DecidableEq

/-- `StateManager.set_light_on` (src/state.py lines 78-91).  `custom` is the
`custom_time` argument and `now` the instant `datetime.now(...)` would
return. -/
def setLightOn (s : BotState) (is_on : Bool) (custom : Option Int) (now : Int) :
    LightResult :=
  if s.light_on = is_on then ⟨none, s, false⟩
  else
    let t := custom.getD now
    ⟨some (t - lastChange s now),
     { s with light_on := is_on, last_change_timestamp := t }, true⟩

/-- The state defaults produced by `BotState()` followed by
`set_last_change(datetime.now(...))`. -/
def defaultStateAt (now : Int) : BotState :=
  { ({} : BotState) with last_change_timestamp := now }

/-- `StateManager.load_state` (src/state.py lines 42-65).  `raw` is the value
returned by `get_state("bot_state")` (`none` when no record exists) and
`parse` stands for `json.loads` plus field extraction, returning `none` when
it raises. -/
def loadState (parse : String → Option BotState) (raw : Option String) (now : Int) :
    BotState :=
  match raw with
  | some str =>
    match parse str with
    | some st => st
    | none => defaultStateAt now
  | none => defaultStateAt now

/-- `SvitloBot._handle_light_off` (src/main.py lines 275-297) up to the point
where the OFF message is sent: picks the backdated event time, clears the
light-message bookkeeping, applies `set_light_on(False, custom_time=event_time)`
and falls back to the detector-supplied duration when that returns `None`.
Returns the updated state and `real_duration`. -/
def handleLightOff (s : BotState) (duration : Int) (backdated : Option Int)
    (now : Int) : BotState × Int :=
  let eventTime := backdated.getD now
  let s1 := { s with last_light_message_id := none, last_light_duration := 0 }
  let r := setLightOn s1 false (some eventTime) now
  (r.state, (r.duration).getD duration)

/-- The scenario trace: probes every 10 s, all failing, from t=0 to t=120. -/
def c2Ticks : List Tick :=
  [⟨false, 0, 0⟩, ⟨false, 10, 0⟩, ⟨false, 20, 0⟩, ⟨false, 30, 0⟩, ⟨false, 40, 0⟩,
   ⟨false, 50, 0⟩, ⟨false, 60, 0⟩, ⟨false, 70, 0⟩, ⟨false, 80, 0⟩, ⟨false, 90, 0⟩,
   ⟨false, 100, 0⟩, ⟨false, 110, 0⟩, ⟨false, 120, 0⟩]

/-- C2: when the detector promotes `Lit` to `Dark` (elapsed failure time has
reached the threshold), the emitted `PowerLost` event carries the backdated
start `first_failure_time`; in a run from the default state, the stored
`first_failure_time` is always the instant of the first failed probe after the
most recent success; the orchestrator records the backdated instant as the new
last-change timestamp; and with threshold 120 s and probes failing
continuously from t=0, `Dark` fires at t=120 with reported start t=0. -/
theorem power_lost_event_is_backdated :
    (∀ (thr : Int) (s : DetState) (t : Tick) (t₀ : Int),
      s.current = true → s.ff = some t₀ → t.success = false → thr ≤ t.time - t₀ →
        step thr s t = (⟨false, some t₀, false⟩, some (.powerLost t.dur t₀))) ∧
    (∀ (thr : Int) (ticks : List Tick) (t₀ : Int),
      (runDetector thr initState ticks).ff = some t₀ → ffSpec ticks t₀) ∧
    (∀ (s : BotState) (dur b now : Int),
      s.light_on = true →
        (handleLightOff s dur (some b) now).1.last_change_timestamp = b) ∧
    (runDetector 120 initState c2Ticks = ⟨false, some 0, false⟩ ∧
      runEvents 120 initState c2Ticks = [(120, .powerLost 0 0)]) := by
  refine ⟨?_, ?_, ?_, by decide, by decide⟩
  · intro thr s t t₀ hcur hff hst hthr
    have hfire : thr ≤ t.time - s.ff.getD t.time ∧ s.current = true := by
      rw [hff]
      exact ⟨hthr, hcur⟩
    have h := step_fire_eq thr s t hst hfire
    rw [hff] at h
    simpa using h
  · intro thr ticks t₀ h
    exact (runDetector_detInv thr ticks).1 t₀ h
  · intro s dur b now hlit
    simp [handleLightOff, setLightOn, hlit]

/-- Concrete instantiation of C2: a firing tick at t=120 over a window opened
at t=0 emits `PowerLost` backdated to 0, and the orchestrator applied to a
backdated instant 42 stores 42 as the last-change timestamp. -/
theorem power_lost_event_is_backdated_witness :
    step 120 ⟨true, some 0, false⟩ ⟨false, 120, 7⟩ =
      (⟨false, some 0, false⟩, some (.powerLost 7 0)) ∧
    (handleLightOff { light_on := true } 3 (some 42) 1000).1.last_change_timestamp = 42 :=
  ⟨power_lost_event_is_backdated.1 120 ⟨true, some 0, false⟩ ⟨false, 120, 7⟩ 0
      rfl rfl rfl (by decide),
    power_lost_event_is_backdated.2.2.1 { light_on := true } 3 42 1000 rfl⟩

/-- The claim C6's "never negative" clause fails on the code:
`set_light_on` computes `(now - self.state.last_change).total_seconds()`
without any clamp, so a backdated event instant earlier than the stored
last-change timestamp yields a negative duration. -/
theorem set_light_on_duration_negative_counterexample :
    (setLightOn { light_on := true, last_change_timestamp := 2000 } false
        (some 1000) 3000).duration = some (-1000) ∧ (-1000 : Int) < 0 :=
  ⟨rfl, by decide⟩

/-- C6 (amended): `set_light_on` returns `event.instant - last_change` (which
may be negative — there is no clamp), flips `light_on`, stores the event
instant as the new last-change timestamp and persists; when the requested
direction already matches it is a no-op returning `none`, persisting nothing
and leaving every field unchanged.  `last_change` is the stored timestamp,
with `now` substituted while the 0 sentinel is stored. -/
theorem set_light_on_spec (s : BotState) (is_on : Bool) (custom : Option Int) (now : Int) :
    (s.light_on = is_on → setLightOn s is_on custom now = ⟨none, s, false⟩) ∧
    (s.light_on ≠ is_on →
      setLightOn s is_on custom now =
        ⟨some (custom.getD now - lastChange s now),
         { s with light_on := is_on, last_change_timestamp := custom.getD now },
         true⟩) := by
  constructor
  · intro h
    simp [setLightOn, h]
  · intro h
    simp [setLightOn, h]

/-- Concrete instantiation of C6 (amended): a transition to OFF at instant 500
from a state last changed at 2000 returns duration −1500, stores 500 and
persists; a matching-direction call is a no-op. -/
theorem set_light_on_spec_witness :
    setLightOn { light_on := true, last_change_timestamp := 2000 } false (some 500) 200 =
      ⟨some (-1500), { light_on := false, last_change_timestamp := 500 }, true⟩ ∧
    setLightOn { light_on := true, last_change_timestamp := 2000 } true none 200 =
      ⟨none, { light_on := true, last_change_timestamp := 2000 }, false⟩ :=
  ⟨((set_light_on_spec { light_on := true, last_change_timestamp := 2000 } false
        (some 500) 200).2 (by decide)).trans (by decide),
    (set_light_on_spec { light_on := true, last_change_timestamp := 2000 } true
        none 200).1 rfl⟩

/-- C10: when loading the persisted session record fails — no record, or the
parse raises — `load_state` swallows the failure and falls back to the
defaults `light_on = true`, `last_change = now`, discarding whatever was
persisted. -/
theorem load_state_failure_falls_back_to_defaults :
    (∀ (parse : String → Option BotState) (now : Int),
      loadState parse none now = defaultStateAt now) ∧
    (∀ (parse : String → Option BotState) (str : String) (now : Int),
      parse str = none → loadState parse (some str) now = defaultStateAt now) ∧
    (∀ now : Int,
      (defaultStateAt now).light_on = true ∧
      (defaultStateAt now).last_change_timestamp = now) := by
  refine ⟨fun _ _ => rfl, ?_, fun _ => ⟨rfl, rfl⟩⟩
  intro parse str now h
  simp [loadState, h]

/-- Concrete instantiation of C10: a record whose parse fails is replaced by
the defaults. -/
theorem load_state_failure_falls_back_to_defaults_witness :
    loadState (fun _ => none) (some ("corrupt")) 5 = defaultStateAt 5 ∧
    (defaultStateAt 5).light_on = true :=
  ⟨load_state_failure_falls_back_to_defaults.2.1 (fun _ => none) ("corrupt") 5 rfl,
    (load_state_failure_falls_back_to_defaults.2.2 5).1⟩

/-! ## Schedule intervals (src/schedule.py lines 165-220)

Instants are minutes; the monitored day's midnight is 0, tomorrow's midnight
is 1440.  `get_outages_for_date` is modelled at the day-table level (the code
first resolves `data`/`date` to the group's day table through `get_day_data`,
then walks hour labels 1..24 from the day's midnight base). -/

/-- Dict lookup `day_data.get(str(hour))`: first entry with the given key. -/
def findVal (h : Nat) (t : Table) : Option String :=
  (t.find? (fun e => e.1 == h)).map (·.2)

/-- `day_data.get(str(hour), "yes")`. -/
def dayVal (t : Table) (h : Nat) : String :=
  (findVal h t).getD ("yes")

/-- `CONFIRMED_BLACKOUT = {"no", "first", "second"}` (src/schedule.py line 29). -/
def CONFIRMED_BLACKOUT : List String := [("no"), ("first"), ("second")]

/-- The half-open sub-interval (in minutes from midnight) selected for
hour-ending label `h` holding confirmed code `v` (src/schedule.py lines
179-184): `first` → first half hour, `second` → second half hour, anything
else (`no`) → the full hour `[60*(h-1), 60*h)`. -/
def hourSub (h : Nat) (v : String) : Nat × Nat :=
  if v = ("first") then (60 * (h - 1), 60 * (h - 1) + 30)
  else if v = ("second") then (60 * (h - 1) + 30, 60 * h)
  else (60 * (h - 1), 60 * h)

/-- The loop body of `get_outages_for_date` (src/schedule.py lines 174-200):
walk the hour labels carrying the open run `cur`, emitting it when a gap
closes it, merging when the next confirmed sub-interval starts exactly where
the run ends. -/
def outagesLoop (t : Table) : List Nat → Option (Nat × Nat) → List (Nat × Nat)
  | [], cur =>
    match cur with
    | some c => [c]
    | none => []
  | h :: rest, cur =>
    let v := dayVal t h
    if v ∈ CONFIRMED_BLACKOUT then
      let p := hourSub h v
      match cur with
      | none => outagesLoop t rest (some p)
      | some c =>
        if c.2 = p.1 then outagesLoop t rest (some (c.1, p.2))
        else c :: outagesLoop t rest (some p)
    else
      match cur with
      | some c => c :: outagesLoop t rest none
      | none => outagesLoop t rest none

/-- `get_outages_for_date` for one resolved day table. -/
def outagesOfTable (t : Table) : List (Nat × Nat) :=
  outagesLoop t (List.range' 1 24) none

/-- The confirmed sub-interval contributed by hour label `h`, if any: the
spec-side per-hour mapping (`no` → full hour, `first`/`second` → half hour,
missing key and non-confirmed codes → none). -/
def slot (t : Table) (h : Nat) : Option (Nat × Nat) :=
  let v := dayVal t h
  if v ∈ CONFIRMED_BLACKOUT then some (hourSub h v) else none

/-- All confirmed sub-intervals of the day, in hour order. -/
def confirmedSlots (t : Table) : List (Nat × Nat) :=
  (List.range' 1 24).filterMap (slot t)

/-- Spec-side run-length merge with an explicit open run: adjacent intervals
whose end equals the next start are coalesced. -/
def mergeAdjC : Option (Nat × Nat) → List (Nat × Nat) → List (Nat × Nat)
  | none, [] => []
  | none, q :: rest => mergeAdjC (some q) rest
  | some c, [] => [c]
  | some c, q :: rest =>
    if c.2 = q.1 then mergeAdjC (some (c.1, q.2)) rest
    else c :: mergeAdjC (some q) rest

/-- Spec-side interval merging: coalesce adjacent touching intervals. -/
def mergeIntervals (l : List (Nat × Nat)) : List (Nat × Nat) :=
  mergeAdjC none l

/-- `get_next_outage` (src/schedule.py lines 202-213) at the day-table level:
`todayT`/`tomorrowT` are the day tables `get_day_data` resolves for
`from_time`'s date and the next date, `fromT` the instant in minutes from
the monitored day's midnight.  The value the Python function returns is the
bare period (today's, or tomorrow's first, shifted by one day), not a pair. -/
def getNextOutage (todayT tomorrowT : Table) (fromT : Nat) : Option (Nat × Nat) :=
  match (outagesOfTable todayT).find?
      (fun o => decide (fromT < o.2) && decide (fromT < o.1)) with
  | some o => some o
  | none => ((outagesOfTable tomorrowT).map (fun p => (p.1 + 1440, p.2 + 1440))).head?

/-- `get_next_power_on` (src/schedule.py lines 215-220) at the day-table
level.  The Python function returns the bare end instant, not a pair. -/
def getNextPowerOn (todayT tomorrowT : Table) (fromT : Nat) : Option Nat :=
  match (outagesOfTable todayT).find? (fun o => decide (fromT < o.2)) with
  | some o => some o.2
  | none =>
    (((outagesOfTable tomorrowT).map (fun p => (p.1 + 1440, p.2 + 1440))).head?).map (·.2)

theorem slot_bounds {t : Table} {h : Nat} {q : Nat × Nat} (h1 : 1 ≤ h)
    (hq : slot t h = some q) : 60 * (h - 1) ≤ q.1 ∧ q.2 ≤ 60 * h ∧ q.1 < q.2 := by
  simp only [slot] at hq
  split at hq
  · cases hq
    simp only [hourSub]
    split
    · refine ⟨le_refl _, by omega, by omega⟩
    · split
      · refine ⟨by omega, by omega, by omega⟩
      · refine ⟨le_refl _, le_refl _, by omega⟩
  · cases hq

theorem slot_some_iff {t : Table} {h : Nat} {q : Nat × Nat} :
    slot t h = some q ↔
      dayVal t h ∈ CONFIRMED_BLACKOUT ∧ hourSub h (dayVal t h) = q := by
  simp only [slot]
  split
  · rename_i hmem
    simp [hmem]
  · rename_i hmem
    simp [hmem]

theorem head?_mem {α : Type} {l : List α} {a : α} (h : l.head? = some a) : a ∈ l := by
  cases l with
  | nil => cases h
  | cons b rest =>
    simp only [List.head?] at h
    cases h
    exact List.mem_cons_self _ _

theorem mergeAdjC_nomerge {c : Nat × Nat} {l : List (Nat × Nat)}
    (h : ∀ q, l.head? = some q → c.2 ≠ q.1) :
    mergeAdjC (some c) l = c :: mergeAdjC none l := by
  cases l with
  | nil => rfl
  | cons q rest =>
    simp only [mergeAdjC, if_neg (h q rfl)]

theorem loop_eq (t : Table) :
    ∀ (hours : List Nat) (cur : Option (Nat × Nat)),
      hours.Pairwise (· < ·) → (∀ h ∈ hours, 1 ≤ h) →
      (∀ c, cur = some c → ∀ h ∈ hours, c.2 ≤ 60 * (h - 1)) →
      outagesLoop t hours cur = mergeAdjC cur (hours.filterMap (slot t)) := by
  intro hours
  induction hours with
  | nil =>
    intro cur _ _ _
    cases cur <;> rfl
  | cons h rest ih =>
    intro cur hpair hpos hcur
    have hh1 : 1 ≤ h := hpos h (List.mem_cons_self _ _)
    have hrest_pos : ∀ x ∈ rest, 1 ≤ x := fun x hx => hpos x (List.mem_cons_of_mem _ hx)
    have hpair' := List.pairwise_cons.mp hpair
    have hlt : ∀ x ∈ rest, h < x := hpair'.1
    have hbound : ∀ {q : Nat × Nat} {x : Nat}, x ∈ rest → slot t x = some q →
        60 * h ≤ q.1 := by
      intro q x hx hq
      have hb := slot_bounds (hrest_pos x hx) hq
      have : h < x := hlt x hx
      omega
    rw [List.filterMap_cons]
    cases hslot : slot t h with
    | some p =>
      obtain ⟨hmem, hps⟩ := slot_some_iff.mp hslot
      have hpb := slot_bounds hh1 hslot
      have hinv : ∀ x ∈ rest, p.2 ≤ 60 * (x - 1) := by
        intro x hx
        have := hlt x hx
        have := hpb.2.1
        omega
      cases cur with
      | none =>
        have lhs : outagesLoop t (h :: rest) none = outagesLoop t rest (some p) := by
          simp only [outagesLoop, if_pos hmem, hps]
        have rhs : mergeAdjC none (p :: rest.filterMap (slot t)) =
            mergeAdjC (some p) (rest.filterMap (slot t)) := rfl
        rw [lhs, rhs]
        refine ih (some p) hpair'.2 hrest_pos ?_
        intro c hc x hx
        injection hc with hc'
        subst hc'
        exact hinv x hx
      | some c =>
        by_cases hc : c.2 = p.1
        · have lhs : outagesLoop t (h :: rest) (some c) =
              outagesLoop t rest (some (c.1, p.2)) := by
            simp only [outagesLoop, if_pos hmem, hps, if_pos hc]
          have rhs : mergeAdjC (some c) (p :: rest.filterMap (slot t)) =
              mergeAdjC (some (c.1, p.2)) (rest.filterMap (slot t)) := by
            simp only [mergeAdjC, if_pos hc]
          rw [lhs, rhs]
          refine ih (some (c.1, p.2)) hpair'.2 hrest_pos ?_
          intro d hd x hx
          injection hd with hd'
          subst hd'
          exact hinv x hx
        · have lhs : outagesLoop t (h :: rest) (some c) =
              c :: outagesLoop t rest (some p) := by
            simp only [outagesLoop, if_pos hmem, hps, if_neg hc]
          have rhs : mergeAdjC (some c) (p :: rest.filterMap (slot t)) =
              c :: mergeAdjC (some p) (rest.filterMap (slot t)) := by
            simp only [mergeAdjC, if_neg hc]
          rw [lhs, rhs]
          congr 1
          refine ih (some p) hpair'.2 hrest_pos ?_
          intro d hd x hx
          injection hd with hd'
          subst hd'
          exact hinv x hx
    | none =>
      have hmem : dayVal t h ∉ CONFIRMED_BLACKOUT := by
        intro hm
        rcases slot_some_iff.mpr ⟨hm, rfl⟩ with h'
        rw [hslot] at h'
        cases h'
      cases cur with
      | none =>
        have lhs : outagesLoop t (h :: rest) none = outagesLoop t rest none := by
          simp only [outagesLoop, if_neg hmem]
        rw [lhs]
        exact ih none hpair'.2 hrest_pos (by rintro c h'; cases h')
      | some c =>
        have hcb : c.2 ≤ 60 * (h - 1) := hcur c rfl h (List.mem_cons_self _ _)
        have lhs : outagesLoop t (h :: rest) (some c) = c :: outagesLoop t rest none := by
          simp only [outagesLoop, if_neg hmem]
        rw [lhs, mergeAdjC_nomerge (c := c) (l := rest.filterMap (slot t))]
        · congr 1
          exact ih none hpair'.2 hrest_pos (by rintro d h'; cases h')
        · intro q hq
          obtain ⟨x, hx, hsx⟩ := List.mem_filterMap.mp (head?_mem hq)
          have := hbound hx hsx
          omega

theorem outages_eq_merged_slots (t : Table) :
    outagesOfTable t = mergeIntervals (confirmedSlots t) := by
  refine loop_eq t (List.range' 1 24) none ?_ ?_ ?_
  · decide
  · decide
  · rintro c h'
    cases h'

/-- C3: the interval-merging function equals the spec pipeline — map each hour
label to its confirmed sub-interval (`no` → full hour `[h-1:00, h:00)`,
`first` → `[h-1:00, h-1:30)`, `second` → `[h-1:30, h:00)`, missing keys and
non-confirmed codes → power present) and coalesce adjacent sub-intervals whose
end equals the next start; and the table `{8: no, 9: no, 10: first}` yields
the single period `[07:00, 09:30)` (minutes 420 to 570). -/
theorem get_outages_matches_hourly_mapping_and_merge :
    (∀ t : Table, outagesOfTable t = mergeIntervals (confirmedSlots t)) ∧
    (∀ (t : Table) (h : Nat), dayVal t h = ("no") →
      slot t h = some (60 * (h - 1), 60 * h)) ∧
    (∀ (t : Table) (h : Nat), dayVal t h = ("first") →
      slot t h = some (60 * (h - 1), 60 * (h - 1) + 30)) ∧
    (∀ (t : Table) (h : Nat), dayVal t h = ("second") →
      slot t h = some (60 * (h - 1) + 30, 60 * h)) ∧
    (∀ (t : Table) (h : Nat), dayVal t h ∉ CONFIRMED_BLACKOUT → slot t h = none) ∧
    (∀ (t : Table) (h : Nat), findVal h t = none → dayVal t h = ("yes")) ∧
    outagesOfTable [(8, ("no")), (9, ("no")), (10, ("first"))] = [(420, 570)] := by
  refine ⟨outages_eq_merged_slots, ?_, ?_, ?_, ?_, ?_, by decide⟩
  · intro t h hv
    simp [slot, hourSub, hv, CONFIRMED_BLACKOUT]
  · intro t h hv
    simp [slot, hourSub, hv, CONFIRMED_BLACKOUT]
  · intro t h hv
    simp [slot, hourSub, hv, CONFIRMED_BLACKOUT]
  · intro t h hv
    simp [slot, hv]
  · intro t h hv
    simp [dayVal, hv]

/-- Concrete instantiation of C3 at the scenario table: the `no` hour 8 maps
to `[420, 480)` and the fused loop agrees with the map-then-merge pipeline. -/
theorem get_outages_matches_hourly_mapping_and_merge_witness :
    slot [(8, ("no")), (9, ("no")), (10, ("first"))] 8 = some (420, 480) ∧
    outagesOfTable [(8, ("no")), (9, ("no")), (10, ("first"))] =
      mergeIntervals (confirmedSlots [(8, ("no")), (9, ("no")), (10, ("first"))]) :=
  ⟨by
    have h := get_outages_matches_hourly_mapping_and_merge.2.1
      [(8, ("no")), (9, ("no")), (10, ("first"))] 8 rfl
    simpa using h,
   get_outages_matches_hourly_mapping_and_merge.1
     [(8, ("no")), (9, ("no")), (10, ("first"))]⟩

/-! ### Structure of the merged interval list (for C9) -/

theorem confirmedSlots_wf (t : Table) : ∀ q ∈ confirmedSlots t, q.1 < q.2 := by
  intro q hq
  obtain ⟨h, hh, hs⟩ := List.mem_filterMap.mp hq
  have h1 : 1 ≤ h := by
    have := List.mem_range'_1.mp hh
    omega
  exact (slot_bounds h1 hs).2.2

theorem confirmedSlots_chain (t : Table) :
    (confirmedSlots t).Chain' (fun a b => a.2 ≤ b.1) := by
  have hp : (List.range' 1 24).Pairwise
      (fun x y => ∀ b ∈ slot t x, ∀ b' ∈ slot t y, b.2 ≤ b'.1) := by
    have hlt : (List.range' 1 24).Pairwise (· < ·) := by decide
    refine hlt.imp_of_mem ?_
    intro x y hx hy hxy
    intro b hb b' hb'
    have h1x : 1 ≤ x := by
      have := List.mem_range'_1.mp hx
      omega
    have h1y : 1 ≤ y := by
      have := List.mem_range'_1.mp hy
      omega
    have hbx := slot_bounds h1x (Option.mem_def.mp hb)
    have hby := slot_bounds h1y (Option.mem_def.mp hb')
    omega
  exact (List.pairwise_filterMap.mpr hp).chain'

theorem mergeAdjC_some_struct :
    ∀ (l : List (Nat × Nat)) (c : Nat × Nat),
      (∀ q ∈ c :: l, q.1 < q.2) → (c :: l).Chain' (fun a b => a.2 ≤ b.1) →
      ∃ e tl, mergeAdjC (some c) l = (c.1, e) :: tl ∧ c.2 ≤ e ∧
        (∀ q ∈ (c.1, e) :: tl, q.1 < q.2) ∧
        ((c.1, e) :: tl).Chain' (fun a b => a.2 < b.1) := by
  intro l
  induction l with
  | nil =>
    intro c hwf _
    refine ⟨c.2, [], by simp [mergeAdjC], le_refl _, ?_, ?_⟩
    · intro q hq
      simp only [List.mem_singleton] at hq
      subst hq
      exact hwf c (List.mem_cons_self _ _)
    · simp
  | cons q rest ih =>
    intro c hwf hchain
    have hcq : c.2 ≤ q.1 := (List.chain'_cons.mp hchain).1
    have hchain_q : (q :: rest).Chain' (fun a b => a.2 ≤ b.1) :=
      (List.chain'_cons.mp hchain).2
    have hwf_c : c.1 < c.2 := hwf c (List.mem_cons_self _ _)
    have hwf_q : q.1 < q.2 := hwf q (List.mem_cons_of_mem _ (List.mem_cons_self _ _))
    by_cases hc : c.2 = q.1
    · have heq : mergeAdjC (some c) (q :: rest) =
          mergeAdjC (some (c.1, q.2)) rest := by
        simp only [mergeAdjC, if_pos hc]
      have hwf' : ∀ x ∈ (c.1, q.2) :: rest, x.1 < x.2 := by
        intro x hx
        rcases List.mem_cons.mp hx with rfl | hx'
        · show c.1 < q.2
          omega
        · exact hwf x (List.mem_cons_of_mem _ (List.mem_cons_of_mem _ hx'))
      have hchain' : ((c.1, q.2) :: rest).Chain' (fun a b => a.2 ≤ b.1) := by
        cases rest with
        | nil => simp
        | cons r rest' =>
          refine List.chain'_cons.mpr ⟨?_, (List.chain'_cons.mp hchain_q).2⟩
          exact (List.chain'_cons.mp hchain_q).1
      obtain ⟨e, tl, heq', hle, hwf'', hchain''⟩ := ih (c.1, q.2) hwf' hchain'
      exact ⟨e, tl, heq.trans heq', by omega, hwf'', hchain''⟩
    · have heq : mergeAdjC (some c) (q :: rest) =
          c :: mergeAdjC (some q) rest := by
        simp only [mergeAdjC, if_neg hc]
      have hwf' : ∀ x ∈ q :: rest, x.1 < x.2 :=
        fun x hx => hwf x (List.mem_cons_of_mem _ hx)
      obtain ⟨e, tl, heq', hle, hwf'', hchain''⟩ := ih q hwf' hchain_q
      refine ⟨c.2, (q.1, e) :: tl, ?_, le_refl _, ?_, ?_⟩
      · rw [heq, heq']
      · intro x hx
        rcases List.mem_cons.mp hx with rfl | hx'
        · exact hwf_c
        · exact hwf'' x hx'
      · refine List.chain'_cons.mpr ⟨?_, hchain''⟩
        show c.2 < q.1
        omega

theorem mergeIntervals_struct (l : List (Nat × Nat))
    (hwf : ∀ q ∈ l, q.1 < q.2) (hchain : l.Chain' (fun a b => a.2 ≤ b.1)) :
    (∀ q ∈ mergeIntervals l, q.1 < q.2) ∧
    (mergeIntervals l).Chain' (fun a b => a.2 < b.1) := by
  cases l with
  | nil =>
    constructor
    · intro q hq
      cases hq
    · simp [mergeIntervals, mergeAdjC]
  | cons q rest =>
    obtain ⟨e, tl, heq, _, hwf', hchain'⟩ := mergeAdjC_some_struct rest q hwf hchain
    have : mergeIntervals (q :: rest) = mergeAdjC (some q) rest := rfl
    rw [this, heq]
    exact ⟨hwf', hchain'⟩

theorem chain'_lt_head (l : List (Nat × Nat)) :
    ∀ (a : Nat × Nat), (∀ q ∈ a :: l, q.1 < q.2) →
      (a :: l).Chain' (fun p q => p.2 < q.1) → ∀ b ∈ l, a.2 < b.1 := by
  induction l with
  | nil =>
    intro a _ _ b hb
    cases hb
  | cons c rest ih =>
    intro a hwf hchain b hb
    have h1 := (List.chain'_cons.mp hchain).1
    rcases List.mem_cons.mp hb with rfl | hb'
    · exact h1
    · have hc := ih c (fun q hq => hwf q (List.mem_cons_of_mem _ hq))
        (List.chain'_cons.mp hchain).2 b hb'
      have hwfc : c.1 < c.2 :=
        hwf c (List.mem_cons_of_mem _ (List.mem_cons_self _ _))
      omega

theorem chain'_lt_pairwise :
    ∀ (l : List (Nat × Nat)), (∀ q ∈ l, q.1 < q.2) →
      l.Chain' (fun p q => p.2 < q.1) → l.Pairwise (fun p q => p.2 < q.1) := by
  intro l
  induction l with
  | nil =>
    intro _ _
    exact List.Pairwise.nil
  | cons a rest ih =>
    intro hwf hchain
    refine List.pairwise_cons.mpr ⟨chain'_lt_head rest a hwf hchain, ?_⟩
    exact ih (fun q hq => hwf q (List.mem_cons_of_mem _ hq)) hchain.tail

theorem mergeAdjC_of_chain_lt :
    ∀ (l : List (Nat × Nat)) (c : Nat × Nat),
      (c :: l).Chain' (fun p q => p.2 < q.1) → mergeAdjC (some c) l = c :: l := by
  intro l
  induction l with
  | nil =>
    intro c _
    rfl
  | cons q rest ih =>
    intro c hchain
    have h1 := (List.chain'_cons.mp hchain).1
    have : mergeAdjC (some c) (q :: rest) = c :: mergeAdjC (some q) rest := by
      simp only [mergeAdjC, if_neg (by omega : ¬c.2 = q.1)]
    rw [this, ih q (List.chain'_cons.mp hchain).2]

theorem mergeIntervals_id_of_chain_lt (l : List (Nat × Nat))
    (hchain : l.Chain' (fun p q => p.2 < q.1)) : mergeIntervals l = l := by
  cases l with
  | nil => rfl
  | cons q rest => exact mergeAdjC_of_chain_lt rest q hchain

theorem mergeAdjC_cover_cur :
    ∀ (l : List (Nat × Nat)) (c : Nat × Nat), (∀ q ∈ l, q.1 ≤ q.2) →
      ∃ p ∈ mergeAdjC (some c) l, p.1 ≤ c.1 ∧ c.2 ≤ p.2 := by
  intro l
  induction l with
  | nil =>
    intro c _
    exact ⟨c, List.mem_cons_self _ _, le_refl _, le_refl _⟩
  | cons q rest ih =>
    intro c hwf
    have hwf' : ∀ x ∈ rest, x.1 ≤ x.2 :=
      fun x hx => hwf x (List.mem_cons_of_mem _ hx)
    have hwf_q : q.1 ≤ q.2 := hwf q (List.mem_cons_self _ _)
    by_cases hc : c.2 = q.1
    · have heq : mergeAdjC (some c) (q :: rest) =
          mergeAdjC (some (c.1, q.2)) rest := by
        simp only [mergeAdjC, if_pos hc]
      obtain ⟨p, hp, h1, h2⟩ := ih (c.1, q.2) hwf'
      rw [heq]
      exact ⟨p, hp, h1, by simp at h2; omega⟩
    · have heq : mergeAdjC (some c) (q :: rest) =
          c :: mergeAdjC (some q) rest := by
        simp only [mergeAdjC, if_neg hc]
      rw [heq]
      exact ⟨c, List.mem_cons_self _ _, le_refl _, le_refl _⟩

theorem mergeAdjC_cover_pair :
    ∀ (l₁ : List (Nat × Nat)) (cur : Option (Nat × Nat)) (q₁ q₂ : Nat × Nat)
      (l₂ : List (Nat × Nat)),
      (∀ q ∈ l₁ ++ q₁ :: q₂ :: l₂, q.1 ≤ q.2) →
      (∀ c, cur = some c → c.1 ≤ c.2) → q₁.2 = q₂.1 →
      ∃ p ∈ mergeAdjC cur (l₁ ++ q₁ :: q₂ :: l₂), p.1 ≤ q₁.1 ∧ q₂.2 ≤ p.2 := by
  intro l₁
  induction l₁ with
  | nil =>
    intro cur q₁ q₂ l₂ hwf hcur hq
    have hwf₂ : ∀ x ∈ l₂, x.1 ≤ x.2 := by
      intro x hx
      exact hwf x (by simp [hx])
    have inner : ∀ (a : Nat), a ≤ q₁.1 →
        ∃ p ∈ mergeAdjC (some (a, q₁.2)) (q₂ :: l₂), p.1 ≤ q₁.1 ∧ q₂.2 ≤ p.2 := by
      intro a ha
      have heq : mergeAdjC (some (a, q₁.2)) (q₂ :: l₂) =
          mergeAdjC (some (a, q₂.2)) l₂ := by
        simp only [mergeAdjC]
        split
        · rfl
        · rename_i hne
          exact absurd hq (by simpa using hne)
      rw [heq]
      obtain ⟨p, hp, h1, h2⟩ := mergeAdjC_cover_cur l₂ (a, q₂.2) hwf₂
      simp only at h1 h2
      exact ⟨p, hp, le_trans h1 ha, h2⟩
    cases cur with
    | none =>
      have heq : mergeAdjC none ([] ++ q₁ :: q₂ :: l₂) =
          mergeAdjC (some q₁) (q₂ :: l₂) := rfl
      rw [heq]
      have : mergeAdjC (some q₁) (q₂ :: l₂) = mergeAdjC (some (q₁.1, q₁.2)) (q₂ :: l₂) := by
        simp
      rw [this]
      exact inner q₁.1 (le_refl _)
    | some c =>
      have hc : c.1 ≤ c.2 := hcur c rfl
      by_cases hmerge : c.2 = q₁.1
      · have heq : mergeAdjC (some c) ([] ++ q₁ :: q₂ :: l₂) =
            mergeAdjC (some (c.1, q₁.2)) (q₂ :: l₂) := by
          simp only [List.nil_append, mergeAdjC, if_pos hmerge]
        rw [heq]
        exact inner c.1 (by omega)
      · have heq : mergeAdjC (some c) ([] ++ q₁ :: q₂ :: l₂) =
            c :: mergeAdjC (some q₁) (q₂ :: l₂) := by
          simp only [List.nil_append, mergeAdjC, if_neg hmerge]
        rw [heq]
        have : mergeAdjC (some q₁) (q₂ :: l₂) = mergeAdjC (some (q₁.1, q₁.2)) (q₂ :: l₂) := by
          simp
        obtain ⟨p, hp, h1, h2⟩ := this ▸ inner q₁.1 (le_refl _)
        exact ⟨p, List.mem_cons_of_mem _ hp, h1, h2⟩
  | cons a l₁' ih =>
    intro cur q₁ q₂ l₂ hwf hcur hq
    have hwf' : ∀ q ∈ l₁' ++ q₁ :: q₂ :: l₂, q.1 ≤ q.2 :=
      fun q hq' => hwf q (List.mem_cons_of_mem _ hq')
    have hwf_a : a.1 ≤ a.2 := hwf a (List.mem_cons_self _ _)
    cases cur with
    | none =>
      have heq : mergeAdjC none ((a :: l₁') ++ q₁ :: q₂ :: l₂) =
          mergeAdjC (some a) (l₁' ++ q₁ :: q₂ :: l₂) := rfl
      rw [heq]
      exact ih (some a) q₁ q₂ l₂ hwf'
        (by rintro c hc; injection hc with hc'; subst hc'; exact hwf_a) hq
    | some c =>
      have hc : c.1 ≤ c.2 := hcur c rfl
      by_cases hmerge : c.2 = a.1
      · have heq : mergeAdjC (some c) ((a :: l₁') ++ q₁ :: q₂ :: l₂) =
            mergeAdjC (some (c.1, a.2)) (l₁' ++ q₁ :: q₂ :: l₂) := by
          simp only [List.cons_append, mergeAdjC, if_pos hmerge]
          rfl
        rw [heq]
        exact ih (some (c.1, a.2)) q₁ q₂ l₂ hwf'
          (by
            rintro d hd
            injection hd with hd'
            subst hd'
            show c.1 ≤ a.2
            omega) hq
      · have heq : mergeAdjC (some c) ((a :: l₁') ++ q₁ :: q₂ :: l₂) =
            c :: mergeAdjC (some a) (l₁' ++ q₁ :: q₂ :: l₂) := by
          simp only [List.cons_append, mergeAdjC, if_neg hmerge]
          rfl
        rw [heq]
        obtain ⟨p, hp, h1, h2⟩ := ih (some a) q₁ q₂ l₂ hwf'
          (by rintro d hd; injection hd with hd'; subst hd'; exact hwf_a) hq
        exact ⟨p, List.mem_cons_of_mem _ hp, h1, h2⟩

/-- C9: for every day-code table, the returned periods are chronological and
pairwise non-overlapping with `start < end`, consecutive periods never touch
(`end < next start`, so re-merging the output is the identity), and adjacent
`second`+`first` codes in consecutive hours merge into one continuous interval
covering both half hours. -/
theorem outages_sorted_disjoint_merge_maximal (t : Table) :
    (∀ p ∈ outagesOfTable t, p.1 < p.2) ∧
    (outagesOfTable t).Chain' (fun p q => p.2 < q.1) ∧
    (outagesOfTable t).Pairwise (fun p q => p.2 < q.1) ∧
    mergeIntervals (outagesOfTable t) = outagesOfTable t ∧
    (∀ h : Nat, 1 ≤ h → h ≤ 23 → dayVal t h = ("second") → dayVal t (h + 1) = ("first") →
      ∃ p ∈ outagesOfTable t, p.1 ≤ 60 * h - 30 ∧ 60 * h + 30 ≤ p.2) := by
  have hwf := confirmedSlots_wf t
  have hchain := confirmedSlots_chain t
  have heq := outages_eq_merged_slots t
  have hstruct := mergeIntervals_struct (confirmedSlots t) hwf hchain
  rw [heq]
  refine ⟨hstruct.1, hstruct.2, chain'_lt_pairwise _ hstruct.1 hstruct.2,
    mergeIntervals_id_of_chain_lt _ hstruct.2, ?_⟩
  intro h h1 h23 hv1 hv2
  have hs1 : slot t h = some (60 * (h - 1) + 30, 60 * h) := by
    simp [slot, hourSub, hv1, CONFIRMED_BLACKOUT]
  have hs2 : slot t (h + 1) = some (60 * h, 60 * h + 30) := by
    simp [slot, hourSub, hv2, CONFIRMED_BLACKOUT]
  have e2 : List.range' h 2 ++ List.range' (h + 2) (23 - h) = List.range' h (25 - h) := by
    have e := List.range'_append_1 h 2 (23 - h)
    rwa [show (23 - h) + 2 = 25 - h by omega] at e
  have e1 : List.range' 1 (h - 1) ++ List.range' h (25 - h) = List.range' 1 24 := by
    have e := List.range'_append_1 1 (h - 1) (25 - h)
    rwa [show 1 + (h - 1) = h by omega, show (25 - h) + (h - 1) = 24 by omega] at e
  have hr2 : List.range' h 2 = [h, h + 1] := rfl
  have hsplit : List.range' 1 (h - 1) ++ (List.range' h 2 ++ List.range' (h + 2) (23 - h)) =
      List.range' 1 24 := by
    rw [e2, e1]
  have hmid : (List.range' h 2).filterMap (slot t) =
      [(60 * (h - 1) + 30, 60 * h), (60 * h, 60 * h + 30)] := by
    rw [hr2]
    simp [List.filterMap_cons, hs1, hs2]
  have hslots : confirmedSlots t =
      (List.range' 1 (h - 1)).filterMap (slot t) ++
        ((60 * (h - 1) + 30, 60 * h) :: (60 * h, 60 * h + 30) ::
          (List.range' (h + 2) (23 - h)).filterMap (slot t)) := by
    show (List.range' 1 24).filterMap (slot t) = _
    rw [← hsplit, List.filterMap_append, List.filterMap_append, hmid]
    rfl
  obtain ⟨p, hp, hple, hpge⟩ :=
    mergeAdjC_cover_pair ((List.range' 1 (h - 1)).filterMap (slot t)) none
      (60 * (h - 1) + 30, 60 * h) (60 * h, 60 * h + 30)
      ((List.range' (h + 2) (23 - h)).filterMap (slot t))
      (by
        intro q hq
        refine le_of_lt (hwf q ?_)
        rw [hslots]
        exact hq)
      (by rintro c hc; cases hc)
      rfl
  have hmerge_eq : mergeIntervals (confirmedSlots t) =
      mergeAdjC none ((List.range' 1 (h - 1)).filterMap (slot t) ++
        ((60 * (h - 1) + 30, 60 * h) :: (60 * h, 60 * h + 30) ::
          (List.range' (h + 2) (23 - h)).filterMap (slot t))) := by
    rw [mergeIntervals, hslots]
  refine ⟨p, ?_, ?_, ?_⟩
  · rw [hmerge_eq]
    exact hp
  · simp only at hple
    omega
  · simpa using hpge

/-- Concrete instantiation of C9: in the table `{8: second, 9: first}` the two
adjacent half hours `[07:30, 08:00)` and `[08:00, 08:30)` come back as the
single period `[450, 510)`, which covers both. -/
theorem outages_sorted_disjoint_merge_maximal_witness :
    outagesOfTable [(8, ("second")), (9, ("first"))] = [(450, 510)] ∧
    ∃ p ∈ outagesOfTable [(8, ("second")), (9, ("first"))], p.1 ≤ 450 ∧ 510 ≤ p.2 :=
  ⟨by decide,
    (outages_sorted_disjoint_merge_maximal [(8, ("second")), (9, ("first"))]).2.2.2.2
      8 (by decide) (by decide) rfl rfl⟩

/-- The claim C4 describes `get_next_outage` as returning the pair
`(interval, is_tomorrow)`, as the repository's own tests assert
(`test_get_next_outage_returns_tuple`) and as `main.py` unpacks it; the
function actually returns the bare `Optional[OutagePeriod]`.  This theorem
evaluates the faithful embedding at the failing inputs: the selection logic
itself matches the claim (skip in-progress, fall over to tomorrow's first,
none when neither day qualifies), but the value is a bare period with no
`is_tomorrow` component anywhere. -/
theorem get_next_outage_returns_bare_period :
    getNextOutage [(9, ("no")), (10, ("no"))]
        [(5, ("no")), (6, ("no")), (7, ("no")), (8, ("first"))] 1380 =
      some (1680, 1890) ∧
    getNextOutage [(9, ("no")), (10, ("no"))] [] 540 = none ∧
    getNextOutage [] [] 540 = none := by
  refine ⟨by decide, by decide, by decide⟩

/-- The claim C5 describes `get_next_power_on` as returning the pair
`(instant, is_tomorrow)`, as the repository's own tests assert
(`test_get_next_power_on_returns_tuple`) and as `main.py` unpacks it; the
function actually returns the bare `Optional[datetime]`.  Evaluating the
faithful embedding: from 14:37 (minute 877) inside `[14:00, 17:00)` it
returns the bare end 17:00 (minute 1020); the tomorrow and empty branches
also return bare values. -/
theorem get_next_power_on_returns_bare_instant :
    getNextPowerOn [(15, ("no")), (16, ("no")), (17, ("no"))] [] 877 = some 1020 ∧
    getNextPowerOn [] [(15, ("no"))] 877 = some 2340 ∧
    getNextPowerOn [] [] 877 = none := by
  refine ⟨by decide, by decide, by decide⟩

/-! ## Schedule payload: completeness check and fingerprint
(src/schedule.py lines 110-152, src/main.py lines 203-243)

`datetime.fromtimestamp(int(ts_str), tz).date()` is the parameter `dateOf`;
`datetime.now(tz).date()` is the parameter `today`; payloads lacking the
`"fact"` section (for which the code returns the sentinel `""` fingerprint
and a `False` completeness verdict) are the `none` case of
`Option FactData`. -/

/-- Dict lookup `groups[self.group]` guarded by `self.group in groups`. -/
def findGroup (g : String) (gs : Groups) : Option Table :=
  (gs.find? (fun e => e.1 == g)).map (·.2)

/-- Dict lookup on the timestamp keys of `data["fact"]["data"]`. -/
def lookupTs (ts : Int) (d : FactData) : Option Groups :=
  (d.find? (fun e => e.1 == ts)).map (·.2)

/-- `ScheduleParser.is_full_schedule` (src/schedule.py lines 130-152): true
iff some key falls on today's date and some key on tomorrow's, regardless of
group. -/
def isFullSchedule (dateOf : Int → Int) (today : Int) (data : Option FactData) : Bool :=
  match data with
  | none => false
  | some d => (d.any (fun e => dateOf e.1 == today)) && (d.any (fun e => dateOf e.1 == today + 1))

/-- The `relevant` dict built by `get_schedule_fingerprint` (src/schedule.py
lines 119-123): the entries of the configured group whose timestamp falls on
today or tomorrow, in payload order. -/
def relevantList (dateOf : Int → Int) (today : Int) (group : String) (d : FactData) :
    List (Int × Table) :=
  d.filterMap (fun e =>
    if dateOf e.1 = today ∨ dateOf e.1 = today + 1 then
      (findGroup group e.2).map (fun tbl => (e.1, tbl))
    else none)

/-- `json.dumps(relevant, sort_keys=True)`: the canonical key-sorted form. -/
def keySort (l : List (Int × Table)) : List (Int × Table) :=
  l.insertionSort (fun a b => a.1 ≤ b.1)

/-- `ScheduleParser.get_schedule_fingerprint` (src/schedule.py lines 110-128),
with `md5 ∘ json.dumps(·, sort_keys=True)` idealised as an injective function
and therefore represented by its preimage, the key-sorted relevant dict; the
sentinel `""` returned for payloads without a `"fact"` section is `none`. -/
def fingerprintM (dateOf : Int → Int) (today : Int) (group : String)
    (data : Option FactData) : Option (List (Int × Table)) :=
  match data with
  | none => none
  | some d => some (keySort (relevantList dateOf today group d))

/-- The entries of the payload relevant to the configured group on the today
and tomorrow dates, in canonical order — the "relevant subset" the claim C8
speaks about (empty for a payload without a `"fact"` section). -/
def relevantEntries (dateOf : Int → Int) (today : Int) (group : String)
    (data : Option FactData) : List (Int × Table) :=
  match data with
  | none => []
  | some d => keySort (relevantList dateOf today group d)

/-- The relevant content as a function of the timestamp: the configured
group's day table at `ts`, when `ts` falls on today or tomorrow. -/
def contentAt (dateOf : Int → Int) (today : Int) (group : String) (d : FactData)
    (ts : Int) : Option Table :=
  if dateOf ts = today ∨ dateOf ts = today + 1 then (lookupTs ts d).bind (findGroup group)
  else none

/-- The schedule-sync slice of the bot state touched by `_fetch_schedule`:
`last_image_commit_sha`, `last_schedule_fingerprint` (in the idealised
fingerprint representation) and the in-memory `schedule_data` cache. -/
structure SyncState where
  last_sha : String
  last_fp : Option (List (Int × Table))
  sched : Option FactData
deriving Repr, DecidableEq

/-- `SvitloBot._fetch_schedule` (src/main.py lines 203-243) after
`check_updates` resolved: `fetched` is `none` when there was no new commit or
a download failed, otherwise the payload and the new commit sha.  Returns the
updated sync state and whether a schedule notification is sent.  An
incomplete payload is rejected before any state is touched; otherwise the
cache and the sha are always updated, and the fingerprint advances (with a
notification) only when it differs from the stored one. -/
def fetchSchedule (dateOf : Int → Int) (today : Int) (group : String) (st : SyncState)
    (fetched : Option (Option FactData × String)) : SyncState × Bool :=
  match fetched with
  | none => (st, false)
  | some (data, sha) =>
    if isFullSchedule dateOf today data then
      let fp := fingerprintM dateOf today group data
      if fp = st.last_fp then
        ({ last_sha := sha, last_fp := st.last_fp, sched := data }, false)
      else
        ({ last_sha := sha, last_fp := fp, sched := data }, true)
    else (st, false)

/-- The claim C7's "always advances last_sync_token" fails on the code: a
fetched payload that fails `is_full_schedule` makes `_fetch_schedule` return
before `update_commit_sha`/`update_schedule_state` runs, so the stored sha
stays at its old value even though a new commit was fetched. -/
theorem fetch_schedule_incomplete_keeps_token_counterexample :
    fetchSchedule (fun ts => ts) 0 ("G") ⟨("old"), none, none⟩
        (some (some [(0, [(("G"), [])])], ("new"))) =
      (⟨("old"), none, none⟩, false) ∧
    (("old") : String) ≠ ("new") := by
  refine ⟨by decide, by decide⟩

/-- C7 (amended): a sync whose payload passes `is_complete` always advances
the sync token to the fetched sha and refreshes the cached schedule; it
additionally advances the fingerprint and signals a notification exactly when
the new fingerprint differs from the stored one; a payload failing
`is_complete` is rejected with the token, the fingerprint and the cached
schedule all untouched and no notification; no fetch, no change. -/
theorem fetch_schedule_sync_spec (dateOf : Int → Int) (today : Int) (group : String)
    (st : SyncState) (data : Option FactData) (sha : String) :
    (isFullSchedule dateOf today data = true →
      (fetchSchedule dateOf today group st (some (data, sha))).1.last_sha = sha ∧
      (fingerprintM dateOf today group data ≠ st.last_fp →
        fetchSchedule dateOf today group st (some (data, sha)) =
          (⟨sha, fingerprintM dateOf today group data, data⟩, true)) ∧
      (fingerprintM dateOf today group data = st.last_fp →
        fetchSchedule dateOf today group st (some (data, sha)) =
          (⟨sha, st.last_fp, data⟩, false))) ∧
    (isFullSchedule dateOf today data = false →
      fetchSchedule dateOf today group st (some (data, sha)) = (st, false)) ∧
    fetchSchedule dateOf today group st none = (st, false) := by
  refine ⟨?_, ?_, rfl⟩
  · intro hfull
    refine ⟨?_, ?_, ?_⟩
    · simp only [fetchSchedule, if_pos hfull]
      split <;> rfl
    · intro hne
      simp only [fetchSchedule, if_pos hfull, if_neg hne]
    · intro heq
      simp only [fetchSchedule, if_pos hfull, if_pos heq]
  · intro hfull
    simp only [fetchSchedule, hfull, Bool.false_eq_true, if_false]

/-- Concrete instantiation of C7 (amended): a complete payload (entries on
dates 0 and 1) advances the sha and, with a fresh fingerprint, notifies. -/
theorem fetch_schedule_sync_spec_witness :
    isFullSchedule (fun ts => ts) 0
        (some [(0, [(("G"), [(1, ("no"))])]), (1, [(("G"), [])])]) = true ∧
    (fetchSchedule (fun ts => ts) 0 ("G") ⟨("old"), none, none⟩
        (some (some [(0, [(("G"), [(1, ("no"))])]), (1, [(("G"), [])])], ("new")))).1.last_sha =
      ("new") :=
  ⟨by decide,
    ((fetch_schedule_sync_spec (fun ts => ts) 0 ("G") ⟨("old"), none, none⟩
        (some [(0, [(("G"), [(1, ("no"))])]), (1, [(("G"), [])])]) ("new")).1
      (by decide)).1⟩

theorem lookupTs_eq_some_iff {d : FactData} (hnd : (d.map Prod.fst).Nodup)
    {ts : Int} {g : Groups} : lookupTs ts d = some g ↔ (ts, g) ∈ d := by
  induction d with
  | nil => simp [lookupTs]
  | cons a rest ih =>
    obtain ⟨a1, a2⟩ := a
    simp only [List.map_cons, List.nodup_cons] at hnd
    by_cases hk : a1 = ts
    · subst hk
      have hfind : lookupTs a1 ((a1, a2) :: rest) = some a2 := by
        simp [lookupTs]
      rw [hfind]
      constructor
      · intro h
        injection h with h'
        subst h'
        exact List.mem_cons_self _ _
      · intro h
        rcases List.mem_cons.mp h with heq | hmem
        · injection heq with _ e2
          subst e2
          rfl
        · exfalso
          exact hnd.1 (List.mem_map_of_mem Prod.fst hmem)
    · have hstep : lookupTs ts ((a1, a2) :: rest) = lookupTs ts rest := by
        simp only [lookupTs]
        rw [List.find?_cons_of_neg _ (by simp [hk])]
      rw [hstep, ih hnd.2]
      constructor
      · exact fun h => List.mem_cons_of_mem _ h
      · intro h
        rcases List.mem_cons.mp h with heq | hmem
        · injection heq with e1 _
          exact absurd e1.symm hk
        · exact hmem

theorem mem_relevantList {dateOf : Int → Int} {today : Int} {group : String}
    {d : FactData} (hnd : (d.map Prod.fst).Nodup) {ts : Int} {tbl : Table} :
    (ts, tbl) ∈ relevantList dateOf today group d ↔
      contentAt dateOf today group d ts = some tbl := by
  unfold relevantList contentAt
  rw [List.mem_filterMap]
  constructor
  · rintro ⟨e, he, hfe⟩
    by_cases hdate : dateOf e.1 = today ∨ dateOf e.1 = today + 1
    · rw [if_pos hdate] at hfe
      rcases hg : findGroup group e.2 with _ | tbl'
      · rw [hg] at hfe
        exact Option.noConfusion hfe
      · rw [hg] at hfe
        have hfe' : (e.1, tbl') = (ts, tbl) := by
          injection hfe
        have h1 : e.1 = ts := congrArg Prod.fst hfe'
        have h2 : tbl' = tbl := congrArg Prod.snd hfe'
        subst h2
        rw [← h1, if_pos hdate]
        have hl : lookupTs e.1 d = some e.2 :=
          (lookupTs_eq_some_iff hnd).mpr (by simpa using he)
        rw [hl]
        simpa using hg
    · rw [if_neg hdate] at hfe
      exact Option.noConfusion hfe
  · intro h
    by_cases hdate : dateOf ts = today ∨ dateOf ts = today + 1
    · rw [if_pos hdate] at h
      rcases hl : lookupTs ts d with _ | g
      · rw [hl] at h
        exact Option.noConfusion h
      · rw [hl] at h
        have h' : findGroup group g = some tbl := h
        refine ⟨(ts, g), (lookupTs_eq_some_iff hnd).mp hl, ?_⟩
        show (if dateOf ts = today ∨ dateOf ts = today + 1 then
            (findGroup group g).map (fun tbl => (ts, tbl)) else none) = some (ts, tbl)
        rw [if_pos hdate, h']
        rfl
    · rw [if_neg hdate] at h
      exact Option.noConfusion h

theorem relevantList_cons_some {dateOf : Int → Int} {today : Int} {group : String}
    {e : Int × Groups} {tbl : Table} (rest : List (Int × Groups))
    (hdate : dateOf e.1 = today ∨ dateOf e.1 = today + 1)
    (hg : findGroup group e.2 = some tbl) :
    relevantList dateOf today group (e :: rest) =
      (e.1, tbl) :: relevantList dateOf today group rest := by
  unfold relevantList
  exact List.filterMap_cons_some (by rw [if_pos hdate, hg]; rfl)

theorem relevantList_cons_none {dateOf : Int → Int} {today : Int} {group : String}
    {e : Int × Groups} (rest : List (Int × Groups))
    (hnone : (if dateOf e.1 = today ∨ dateOf e.1 = today + 1 then
      (findGroup group e.2).map (fun tbl => (e.1, tbl)) else none) = none) :
    relevantList dateOf today group (e :: rest) = relevantList dateOf today group rest := by
  unfold relevantList
  exact List.filterMap_cons_none hnone

theorem relevantList_keys_sublist (dateOf : Int → Int) (today : Int) (group : String)
    (d : FactData) :
    ((relevantList dateOf today group d).map Prod.fst).Sublist (d.map Prod.fst) := by
  induction d with
  | nil => simp [relevantList]
  | cons e rest ih =>
    by_cases hdate : dateOf e.1 = today ∨ dateOf e.1 = today + 1
    · rcases hg : findGroup group e.2 with _ | tbl
      · rw [relevantList_cons_none rest (by rw [if_pos hdate, hg]; rfl)]
        exact ih.cons e.1
      · rw [relevantList_cons_some rest hdate hg, List.map_cons]
        exact ih.cons₂ e.1
    · rw [relevantList_cons_none rest (by rw [if_neg hdate])]
      exact ih.cons e.1

theorem relevantList_keys_nodup {dateOf : Int → Int} {today : Int} {group : String}
    {d : FactData} (hnd : (d.map Prod.fst).Nodup) :
    ((relevantList dateOf today group d).map Prod.fst).Nodup :=
  hnd.sublist (relevantList_keys_sublist dateOf today group d)

theorem keySort_perm (l : List (Int × Table)) : List.Perm (keySort l) l :=
  List.perm_insertionSort _ _

theorem keySort_sorted (l : List (Int × Table)) :
    (keySort l).Pairwise (fun a b => a.1 ≤ b.1) := by
  haveI : IsTotal (Int × Table) (fun a b => a.1 ≤ b.1) := ⟨fun a b => le_total a.1 b.1⟩
  haveI : IsTrans (Int × Table) (fun a b => a.1 ≤ b.1) :=
    ⟨fun _ _ _ h1 h2 => le_trans h1 h2⟩
  exact List.sorted_insertionSort _ l

theorem keySort_strict {l : List (Int × Table)} (hnd : (l.map Prod.fst).Nodup) :
    (keySort l).Pairwise (fun a b => a.1 < b.1) := by
  have hperm : List.Perm (keySort l) l := keySort_perm l
  have hnd' : ((keySort l).map Prod.fst).Nodup := ((hperm.map Prod.fst).nodup_iff).mpr hnd
  have hne : (keySort l).Pairwise (fun a b => a.1 ≠ b.1) := List.pairwise_map.mp hnd'
  exact ((keySort_sorted l).and hne).imp (fun h => lt_of_le_of_ne h.1 h.2)

theorem keySort_eq_of_mem_iff {l1 l2 : List (Int × Table)}
    (h1 : (l1.map Prod.fst).Nodup) (h2 : (l2.map Prod.fst).Nodup)
    (hmem : ∀ x, x ∈ l1 ↔ x ∈ l2) : keySort l1 = keySort l2 := by
  haveI : IsAntisymm (Int × Table) (fun a b => a.1 < b.1) :=
    ⟨fun a b hab hba => absurd (lt_trans hab hba) (lt_irrefl _)⟩
  have hperm : List.Perm l1 l2 :=
    (List.perm_ext_iff_of_nodup (List.Nodup.of_map Prod.fst h1)
      (List.Nodup.of_map Prod.fst h2)).mpr hmem
  exact List.eq_of_perm_of_sorted
    ((keySort_perm l1).trans (hperm.trans (keySort_perm l2).symm))
    (keySort_strict h1) (keySort_strict h2)

theorem canonical_eq_iff (dateOf : Int → Int) (today : Int) (group : String)
    {d1 d2 : FactData} (h1 : (d1.map Prod.fst).Nodup) (h2 : (d2.map Prod.fst).Nodup) :
    keySort (relevantList dateOf today group d1) =
        keySort (relevantList dateOf today group d2) ↔
      ∀ ts, contentAt dateOf today group d1 ts = contentAt dateOf today group d2 ts := by
  constructor
  · intro heq ts
    rcases hc : contentAt dateOf today group d1 ts with _ | tbl
    · rcases hc2 : contentAt dateOf today group d2 ts with _ | tbl2
      · rfl
      · exfalso
        have hm2 : (ts, tbl2) ∈ relevantList dateOf today group d2 :=
          (mem_relevantList h2).mpr hc2
        have hks : (ts, tbl2) ∈ keySort (relevantList dateOf today group d2) :=
          ((keySort_perm _).mem_iff).mpr hm2
        rw [← heq] at hks
        have hm1 := ((keySort_perm _).mem_iff).mp hks
        have := (mem_relevantList h1).mp hm1
        rw [hc] at this
        cases this
    · have hm1 : (ts, tbl) ∈ relevantList dateOf today group d1 :=
        (mem_relevantList h1).mpr hc
      have hks : (ts, tbl) ∈ keySort (relevantList dateOf today group d1) :=
        ((keySort_perm _).mem_iff).mpr hm1
      rw [heq] at hks
      have hm2 := ((keySort_perm _).mem_iff).mp hks
      exact ((mem_relevantList h2).mp hm2).symm
  · intro hcontent
    refine keySort_eq_of_mem_iff (relevantList_keys_nodup h1) (relevantList_keys_nodup h2) ?_
    rintro ⟨ts, tbl⟩
    rw [mem_relevantList h1, mem_relevantList h2, hcontent ts]

/-- The claim C8 fails at the `"fact"`-section edge: a payload without the
section gets the sentinel `""` fingerprint, while a fact-bearing payload
whose relevant subset is empty (here: an entry of another group on an
irrelevant date) gets `md5("{}")` — the relevant entries are equal (both
empty) but the fingerprints differ. -/
theorem fingerprint_sentinel_counterexample :
    relevantEntries (fun ts => ts) 0 ("G") none =
      relevantEntries (fun ts => ts) 0 ("G") (some [(5, [(("X"), [])])]) ∧
    fingerprintM (fun ts => ts) 0 ("G") none ≠
      fingerprintM (fun ts => ts) 0 ("G") (some [(5, [(("X"), [])])]) := by
  refine ⟨by decide, by decide⟩

/-- C8 (amended): among payloads that contain the `"fact"` section, the
fingerprint (md5 over the canonically serialised relevant dict, the hash
idealised as injective) is a function of exactly the relevant content — the
configured group's entries on the today and tomorrow dates: fingerprints are
equal iff the relevant content functions agree, hence the fingerprint is
insensitive to key order and to other-group or other-date entries, and
changes exactly when relevant content changes.  A payload missing the
section instead gets the sentinel fingerprint. -/
theorem fingerprint_iff_relevant_content (dateOf : Int → Int) (today : Int)
    (group : String) (d1 d2 : FactData)
    (h1 : (d1.map Prod.fst).Nodup) (h2 : (d2.map Prod.fst).Nodup) :
    fingerprintM dateOf today group (some d1) = fingerprintM dateOf today group (some d2) ↔
      ∀ ts, contentAt dateOf today group d1 ts = contentAt dateOf today group d2 ts := by
  show some _ = some _ ↔ _
  rw [Option.some_inj]
  exact canonical_eq_iff dateOf today group h1 h2

/-- Concrete instantiation of C8 (amended): two fact-bearing payloads whose
`"G"` entries on dates 0 and 1 agree — one with its keys reordered and an
other-group entry on an irrelevant date — have equal fingerprints. -/
theorem fingerprint_iff_relevant_content_witness :
    ((([(0, [(("G"), [(1, ("no"))])]), (5, [(("G"), [(2, ("no"))])])] : FactData).map
        Prod.fst).Nodup) ∧
    fingerprintM (fun ts => ts) 0 ("G")
        (some [(0, [(("G"), [(1, ("no"))])]), (5, [(("G"), [(2, ("no"))])])]) =
      fingerprintM (fun ts => ts) 0 ("G")
        (some [(5, [(("X"), [])]), (0, [(("G"), [(1, ("no"))])])]) :=
  ⟨by decide,
    (fingerprint_iff_relevant_content (fun ts => ts) 0 ("G") _ _
        (by decide) (by decide)).mpr
      (by
        intro ts
        by_cases h0 : ts = 0
        · subst h0
          decide
        · by_cases h1 : ts = 1
          · subst h1
            decide
          · unfold contentAt
            rw [if_neg (by simpa using not_or.mpr ⟨h0, h1⟩),
              if_neg (by simpa using not_or.mpr ⟨h0, h1⟩)])⟩

end Svitlobot
